import Mathlib

/-!
Verification of `src/include/ringbuffer.hpp` (Unbinilium/Circle), a bounded
FIFO ring buffer `ubn::ringbuffer<T, capacity>`.

Shallow embedding notes:
* The C++ object state is the triple `(p_buffer, m_capacity, m_position)`.
  `p_buffer` is an array of `capacity + 1` value-initialized slots; we model
  it as a total function `Nat → T` (indices above `capacity` are never
  touched by the code, which we prove).
* `m_capacity` and `m_position` are `std::size_t`.  We assume the usual LP64
  platform, so `std::size_t` is 64 bits wide and all of its arithmetic is
  performed modulo `size_t_limit = 2 ^ 64`.  Every arithmetic step of the
  source is translated with that wraparound made explicit, except where a
  guard in the very same expression makes the machine operation coincide
  with the operation on `Nat` (e.g. `--m_capacity` behind `m_capacity ?`,
  which cannot underflow).
* The constructor performs `static_assert(capacity >= 1)`; theorems about
  the class therefore carry the hypothesis `0 < capacity`, and, since
  `capacity` is a `std::size_t` template parameter, `capacity < 2 ^ 64`.
-/

namespace ubn

/-- The number of values of `std::size_t` on an LP64 platform: `2 ^ 64`.
All `std::size_t` arithmetic in the source is performed modulo this. -/
def size_t_limit : Nat := 2 ^ 64

/-- State of a `ubn::ringbuffer<T, capacity>` object.
`p_buffer` models `T* p_buffer { new T[capacity + 1]{} }` (only indices
`0 .. capacity` correspond to allocated slots; the code never touches any
other index, which is proved below).  `m_capacity` and `m_position` are the
two `std::size_t` members. -/
@[ext]
structure ringbuffer (T : Type) (capacity : Nat) where
  p_buffer   : Nat → T
  m_capacity : Nat
  m_position : Nat

variable {T : Type} {capacity : Nat}

/-- The freshly constructed buffer: `new T[capacity + 1]{}` value-initializes
every slot (modelled by `default`), `m_capacity { capacity }`,
`m_position { 0 }`. -/
def ringbuffer.init (T : Type) [Inhabited T] (capacity : Nat) :
    ringbuffer T capacity :=
  { p_buffer := fun _ => default, m_capacity := capacity, m_position := 0 }

/-- `is_empty`: `return !(m_capacity != capacity);`. -/
def ringbuffer.is_empty (rb : ringbuffer T capacity) : Bool :=
  rb.m_capacity == capacity

/-- `is_full`: `return m_capacity ? false : true;`. -/
def ringbuffer.is_full (rb : ringbuffer T capacity) : Bool :=
  rb.m_capacity == 0

/-- `size`: `return capacity - m_capacity;` in `std::size_t` arithmetic,
i.e. the mathematical difference reduced modulo `2 ^ 64` (both operands are
below `size_t_limit` in every machine state). -/
def ringbuffer.size (rb : ringbuffer T capacity) : Nat :=
  (capacity + size_t_limit - rb.m_capacity) % size_t_limit

/-- `is_overwrite`: `return (m_capacity ? --m_capacity : false) ? false : true;`.
If `m_capacity` is nonzero it is decremented (the guard makes the machine
decrement coincide with `Nat` subtraction) and the result is `false` iff the
decremented value is still nonzero; if `m_capacity` is zero on entry the
result is `true` and nothing changes.  Returns the result together with the
mutated state. -/
def ringbuffer.is_overwrite (rb : ringbuffer T capacity) :
    Bool × ringbuffer T capacity :=
  if rb.m_capacity ≠ 0 then
    (rb.m_capacity - 1 == 0, { rb with m_capacity := rb.m_capacity - 1 })
  else
    (true, rb)

/-- `emplace`: `p_buffer[m_position++ % capacity] = v; return is_overwrite();`.
The store uses the pre-increment `m_position`; the increment is a
`std::size_t` increment, hence modulo `2 ^ 64`. -/
def ringbuffer.emplace (rb : ringbuffer T capacity) (v : T) :
    Bool × ringbuffer T capacity :=
  ringbuffer.is_overwrite
    { rb with
      p_buffer := Function.update rb.p_buffer (rb.m_position % capacity) v
      m_position := (rb.m_position + 1) % size_t_limit }

/-- `pull`:
`return p_buffer[is_empty() ? capacity : (m_position + m_capacity++ - capacity) % capacity];`.
Only the selected arm of the conditional is evaluated, so the
post-increment of `m_capacity` happens exactly when the buffer is not
empty.  The index arithmetic `m_position + m_capacity - capacity` is
`std::size_t` arithmetic: addition modulo `2 ^ 64` followed by subtraction
modulo `2 ^ 64` (written `+ (size_t_limit - capacity)` and a reduction,
which is the wrapped subtraction for operands below `size_t_limit`).
Returns the fetched value together with the mutated state. -/
def ringbuffer.pull (rb : ringbuffer T capacity) : T × ringbuffer T capacity :=
  if rb.is_empty then
    (rb.p_buffer capacity, rb)
  else
    (rb.p_buffer (((rb.m_position + rb.m_capacity) % size_t_limit
        + (size_t_limit - capacity)) % size_t_limit % capacity),
     { rb with m_capacity := (rb.m_capacity + 1) % size_t_limit })

/-- `reset`: `m_capacity = capacity; m_position = 0;`.  Storage untouched. -/
def ringbuffer.reset (rb : ringbuffer T capacity) : ringbuffer T capacity :=
  { rb with m_capacity := capacity, m_position := 0 }

/-- One public mutating call on the buffer, used to describe reachable
states: an `emplace` of some value, a `pull`, or a `reset`. -/
inductive Op (T : Type) where
  | emplace (v : T)
  | pull
  | reset

/-- Apply one operation, keeping only the resulting state. -/
def ringbuffer.step (rb : ringbuffer T capacity) : Op T → ringbuffer T capacity
  | .emplace v => (rb.emplace v).2
  | .pull => rb.pull.2
  | .reset => rb.reset

/-- Run a sequence of operations from a state.  A state of
`ringbuffer T capacity` is reachable iff it is `(init T capacity).run ops`
for some list `ops`. -/
def ringbuffer.run (rb : ringbuffer T capacity) (ops : List (Op T)) :
    ringbuffer T capacity :=
  ops.foldl ringbuffer.step rb

/-- Write a whole list of values with `emplace`, collecting the boolean
results in order. -/
def ringbuffer.emplaceList (rb : ringbuffer T capacity) :
    List T → List Bool × ringbuffer T capacity
  | [] => ([], rb)
  | v :: vs =>
    let r := rb.emplace v
    let rs := r.2.emplaceList vs
    (r.1 :: rs.1, rs.2)

/-- Perform `n` `pull` calls, collecting the returned values in order. -/
def ringbuffer.pullN (rb : ringbuffer T capacity) :
    Nat → List T × ringbuffer T capacity
  | 0 => ([], rb)
  | n + 1 =>
    let r := rb.pull
    let rs := r.2.pullN n
    (r.1 :: rs.1, rs.2)

/-- Ghost accounting for one operation: the number of writes performed since
the last `reset` grows by one on `emplace`, is unchanged by `pull`, and is
cleared by `reset`. -/
def Op.bump : Op T → Nat → Nat
  | .emplace _, n => n + 1
  | .pull, n => n
  | .reset, _ => 0

/-- The number of `emplace` calls after the last `reset` in `ops` (or since
the start, if `ops` has no `reset`). -/
def writesSinceReset (ops : List (Op T)) : Nat :=
  ops.foldl (fun n op => op.bump n) 0

/-! ### Basic field lemmas for the operations -/

lemma ringbuffer.emplace_m_capacity (rb : ringbuffer T capacity) (v : T) :
    (rb.emplace v).2.m_capacity = rb.m_capacity - 1 := by
  unfold ringbuffer.emplace ringbuffer.is_overwrite
  split
  · rfl
  · simp only [ne_eq, Decidable.not_not] at *
    omega

lemma ringbuffer.emplace_m_position (rb : ringbuffer T capacity) (v : T) :
    (rb.emplace v).2.m_position = (rb.m_position + 1) % size_t_limit := by
  unfold ringbuffer.emplace ringbuffer.is_overwrite
  split <;> rfl

lemma ringbuffer.emplace_p_buffer (rb : ringbuffer T capacity) (v : T) :
    (rb.emplace v).2.p_buffer
      = Function.update rb.p_buffer (rb.m_position % capacity) v := by
  unfold ringbuffer.emplace ringbuffer.is_overwrite
  split <;> rfl

lemma ringbuffer.emplace_fst (rb : ringbuffer T capacity) (v : T) :
    (rb.emplace v).1 = (rb.m_capacity - 1 == 0) := by
  unfold ringbuffer.emplace ringbuffer.is_overwrite
  split
  · rfl
  · simp only [ne_eq, Decidable.not_not] at *
    simp_all

lemma ringbuffer.is_empty_true_iff (rb : ringbuffer T capacity) :
    rb.is_empty = true ↔ rb.m_capacity = capacity := by
  simp [ringbuffer.is_empty]

lemma ringbuffer.is_empty_false_iff (rb : ringbuffer T capacity) :
    rb.is_empty = false ↔ rb.m_capacity ≠ capacity := by
  simp [ringbuffer.is_empty]

lemma ringbuffer.pull_of_empty (rb : ringbuffer T capacity)
    (h : rb.is_empty = true) :
    rb.pull = (rb.p_buffer capacity, rb) := by
  simp [ringbuffer.pull, h]

lemma ringbuffer.pull_of_not_empty (rb : ringbuffer T capacity)
    (h : rb.is_empty = false) :
    rb.pull = (rb.p_buffer (((rb.m_position + rb.m_capacity) % size_t_limit
        + (size_t_limit - capacity)) % size_t_limit % capacity),
      { rb with m_capacity := (rb.m_capacity + 1) % size_t_limit }) := by
  simp [ringbuffer.pull, h]

/-- The wrapped `std::size_t` value of `p + m - c` equals `v` whenever the
sum is congruent to `v + c` modulo `2 ^ 64` and `v` fits in a word. -/
lemma machine_sub_eq (c p m v : Nat) (hc : c < size_t_limit)
    (hv : v < size_t_limit)
    (hcong : (p + m) % size_t_limit = (v + c) % size_t_limit) :
    ((p + m) % size_t_limit + (size_t_limit - c)) % size_t_limit = v := by
  unfold size_t_limit at *
  omega

/-! ### The reachability invariant -/

/-- Machine-state invariant tied to the ghost count `n` of writes performed
since the last `reset`: the free slack never exceeds `capacity`, the stored
write cursor is `n` reduced modulo `2 ^ 64`, the number of pending elements
never exceeds `n`, and every slot from the sentinel upward still holds its
initial default value. -/
def ringbuffer.Inv [Inhabited T] (rb : ringbuffer T capacity) (n : Nat) : Prop :=
  rb.m_capacity ≤ capacity ∧
  rb.m_position = n % size_t_limit ∧
  capacity - rb.m_capacity ≤ n ∧
  ∀ i, capacity ≤ i → rb.p_buffer i = default

lemma ringbuffer.Inv_init [Inhabited T] :
    (ringbuffer.init T capacity).Inv 0 := by
  refine ⟨le_refl _, ?_, ?_, fun i _ => rfl⟩ <;> simp [ringbuffer.init]

lemma ringbuffer.Inv_step [Inhabited T] (hcap : 0 < capacity)
    (hw : capacity < size_t_limit) (rb : ringbuffer T capacity) (n : Nat)
    (h : rb.Inv n) (op : Op T) : (rb.step op).Inv (op.bump n) := by
  obtain ⟨h1, h2, h3, h4⟩ := h
  cases op with
  | emplace v =>
    refine ⟨?_, ?_, ?_, ?_⟩
    · rw [ringbuffer.step, ringbuffer.emplace_m_capacity]; omega
    · rw [ringbuffer.step, ringbuffer.emplace_m_position, h2, Op.bump]
      unfold size_t_limit
      omega
    · rw [ringbuffer.step, ringbuffer.emplace_m_capacity, Op.bump]; omega
    · intro i hi
      rw [ringbuffer.step, ringbuffer.emplace_p_buffer,
        Function.update_noteq (by have := Nat.mod_lt rb.m_position hcap; omega)]
      exact h4 i hi
  | pull =>
    rw [ringbuffer.step, Op.bump]
    by_cases he : rb.is_empty = true
    · rw [ringbuffer.pull_of_empty rb he]
      exact ⟨h1, h2, h3, h4⟩
    · rw [Bool.not_eq_true] at he
      rw [ringbuffer.pull_of_not_empty rb he]
      rw [ringbuffer.is_empty_false_iff] at he
      have hcap' : rb.m_capacity < capacity := by omega
      have : (rb.m_capacity + 1) % size_t_limit = rb.m_capacity + 1 :=
        Nat.mod_eq_of_lt (by omega)
      exact ⟨by simp only [this]; omega, h2, by simp only [this]; omega, h4⟩
  | reset =>
    exact ⟨le_refl _, by simp [ringbuffer.step, ringbuffer.reset, Op.bump], by
      simp [ringbuffer.step, ringbuffer.reset, Op.bump], h4⟩

lemma ringbuffer.Inv_run [Inhabited T] (hcap : 0 < capacity)
    (hw : capacity < size_t_limit) :
    ∀ (ops : List (Op T)) (rb : ringbuffer T capacity) (n : Nat),
      rb.Inv n → (rb.run ops).Inv (ops.foldl (fun n op => op.bump n) n)
  | [], _, _, h => h
  | op :: ops, rb, n, h =>
    ringbuffer.Inv_run hcap hw ops (rb.step op) (op.bump n)
      (ringbuffer.Inv_step hcap hw rb n h op)

/-- Every reachable state satisfies the invariant, with the ghost count
instantiated to the number of writes since the last reset. -/
lemma ringbuffer.Inv_reachable [Inhabited T] (hcap : 0 < capacity)
    (hw : capacity < size_t_limit) (ops : List (Op T)) :
    ((ringbuffer.init T capacity).run ops).Inv (writesSinceReset ops) :=
  ringbuffer.Inv_run hcap hw ops _ 0 ringbuffer.Inv_init

/-! ### Characterizing bursts of writes and reads -/

lemma getD_range_eq_self [Inhabited T] :
    ∀ vs : List T, (List.range vs.length).map (fun j => vs.getD j default) = vs
  | [] => by simp
  | v :: vs => by
    rw [List.length_cons, List.range_succ_eq_map, List.map_cons, List.map_map,
      List.getD_cons_zero,
      show ((fun j => (v :: vs).getD j default) ∘ Nat.succ)
          = (fun j => vs.getD j default) from
        funext fun j => by simp [List.getD_cons_succ],
      getD_range_eq_self vs]

lemma ringbuffer.emplaceList_append [Inhabited T] :
    ∀ (as bs : List T) (s : ringbuffer T capacity),
      s.emplaceList (as ++ bs)
        = ((s.emplaceList as).1 ++ ((s.emplaceList as).2.emplaceList bs).1,
           ((s.emplaceList as).2.emplaceList bs).2)
  | [], bs, s => by simp [ringbuffer.emplaceList]
  | a :: as, bs, s => by
    show ((s.emplace a).1 :: ((s.emplace a).2.emplaceList (as ++ bs)).1,
        ((s.emplace a).2.emplaceList (as ++ bs)).2) = _
    rw [ringbuffer.emplaceList_append as bs]
    rfl

/-- State and outputs of a burst of writes that stays inside the first lap
of the circular region (`m_position + length ≤ capacity`): the cursor
advances without wrapping, the free slack shrinks by the length (floored at
zero), the written values land in consecutive slots, and the `j`-th boolean
result is `true` exactly when the free slack hits zero on that write. -/
lemma ringbuffer.emplaceList_spec [Inhabited T] :
    ∀ (vs : List T) (s : ringbuffer T capacity),
      s.m_position + vs.length ≤ capacity → capacity < size_t_limit →
      (s.emplaceList vs).2.m_position = s.m_position + vs.length ∧
      (s.emplaceList vs).2.m_capacity = s.m_capacity - vs.length ∧
      (∀ i, (s.emplaceList vs).2.p_buffer i =
        if s.m_position ≤ i ∧ i < s.m_position + vs.length
        then vs.getD (i - s.m_position) default else s.p_buffer i) ∧
      (s.emplaceList vs).1 =
        (List.range vs.length).map (fun j => s.m_capacity - (j + 1) == 0)
  | [], s, _, _ => by
    refine ⟨by simp [ringbuffer.emplaceList], by simp [ringbuffer.emplaceList],
      fun i => ?_, by simp [ringbuffer.emplaceList]⟩
    rw [show (s.emplaceList []).2 = s from rfl, List.length_nil,
      if_neg (by omega)]
  | v :: vs, s, h, hw => by
    have hlt : s.m_position < capacity := by
      have := List.length_cons v vs ▸ h; omega
    have hpos1 : (s.emplace v).2.m_position = s.m_position + 1 := by
      rw [ringbuffer.emplace_m_position]
      exact Nat.mod_eq_of_lt (by omega)
    have hcap1 : (s.emplace v).2.m_capacity = s.m_capacity - 1 :=
      ringbuffer.emplace_m_capacity s v
    have hbuf1 : (s.emplace v).2.p_buffer
        = Function.update s.p_buffer s.m_position v := by
      rw [ringbuffer.emplace_p_buffer, Nat.mod_eq_of_lt hlt]
    have ih := ringbuffer.emplaceList_spec vs (s.emplace v).2
      (by rw [hpos1]; have := List.length_cons v vs ▸ h; omega) hw
    rw [hpos1, hcap1, hbuf1] at ih
    have hfst : (s.emplaceList (v :: vs)).1
        = (s.emplace v).1 :: ((s.emplace v).2.emplaceList vs).1 := rfl
    have hsnd : (s.emplaceList (v :: vs)).2
        = ((s.emplace v).2.emplaceList vs).2 := rfl
    refine ⟨?_, ?_, fun i => ?_, ?_⟩
    · rw [hsnd, ih.1, List.length_cons]; omega
    · rw [hsnd, ih.2.1, List.length_cons]; omega
    · rw [hsnd, ih.2.2.1 i, Function.update_apply, List.length_cons]
      rcases Nat.lt_or_ge i s.m_position with hc | hc
      · rw [if_neg (by omega), if_neg (by omega), if_neg (by omega)]
      rcases Nat.eq_or_lt_of_le hc with hc' | hc'
      · rw [if_neg (by omega), if_pos hc'.symm, if_pos (by omega), ← hc',
          Nat.sub_self, List.getD_cons_zero]
      rcases Nat.lt_or_ge i (s.m_position + 1 + vs.length) with hc2 | hc2
      · rw [if_pos (by omega), if_pos (by omega),
          show i - s.m_position = (i - (s.m_position + 1)) + 1 from by omega,
          List.getD_cons_succ]
      · rw [if_neg (by omega), if_neg (by omega), if_neg (by omega)]
    · rw [hfst, ih.2.2.2, ringbuffer.emplace_fst, List.length_cons,
        List.range_succ_eq_map, List.map_cons, List.map_map]
      refine congrArg₂ _ rfl (congrArg₂ _ (funext fun j => ?_) rfl)
      simp only [Function.comp_apply]
      congr 1
      omega

lemma ringbuffer.p_buffer_mk (f : Nat → T) (m p : Nat) :
    (ringbuffer.mk f m p : ringbuffer T capacity).p_buffer = f := rfl

lemma ringbuffer.m_capacity_mk (f : Nat → T) (m p : Nat) :
    (ringbuffer.mk f m p : ringbuffer T capacity).m_capacity = m := rfl

lemma ringbuffer.m_position_mk (f : Nat → T) (m p : Nat) :
    (ringbuffer.mk f m p : ringbuffer T capacity).m_position = p := rfl

/-- State and outputs of a burst of `n` reads that never empties the buffer
prematurely (`m + n ≤ capacity`): the free slack grows by `n`, nothing else
changes, and the `j`-th value read comes from the slot the `std::size_t`
expression `(m_position + (m_capacity + j) - capacity) % capacity`
denotes. -/
lemma ringbuffer.pullN_spec [Inhabited T] :
    ∀ (n : Nat) (buf : Nat → T) (m p : Nat), capacity < size_t_limit →
      m + n ≤ capacity →
      ((ringbuffer.mk buf m p : ringbuffer T capacity).pullN n).2
          = ringbuffer.mk buf (m + n) p ∧
      ((ringbuffer.mk buf m p : ringbuffer T capacity).pullN n).1
          = (List.range n).map (fun j =>
              buf (((p + m + j) % size_t_limit
                + (size_t_limit - capacity)) % size_t_limit % capacity))
  | 0, buf, m, p, _, _ => ⟨rfl, by simp [ringbuffer.pullN]⟩
  | n + 1, buf, m, p, hw, hn => by
    have he : (ringbuffer.mk buf m p : ringbuffer T capacity).is_empty
        = false := by
      rw [ringbuffer.is_empty_false_iff, ringbuffer.m_capacity_mk]; omega
    have hp := ringbuffer.pull_of_not_empty _ he
    simp only [ringbuffer.p_buffer_mk, ringbuffer.m_capacity_mk,
      ringbuffer.m_position_mk, Nat.mod_eq_of_lt
        (show m + 1 < size_t_limit from by omega)] at hp
    have ih := ringbuffer.pullN_spec n buf (m + 1) p hw (by omega)
    have hfst : ((ringbuffer.mk buf m p : ringbuffer T capacity).pullN (n + 1)).1
        = (ringbuffer.mk buf m p : ringbuffer T capacity).pull.1
          :: ((ringbuffer.mk buf m p : ringbuffer T capacity).pull.2.pullN n).1 :=
      rfl
    have hsnd : ((ringbuffer.mk buf m p : ringbuffer T capacity).pullN (n + 1)).2
        = ((ringbuffer.mk buf m p : ringbuffer T capacity).pull.2.pullN n).2 :=
      rfl
    constructor
    · rw [hsnd, hp]
      show ((ringbuffer.mk buf (m + 1) p : ringbuffer T capacity).pullN n).2 = _
      rw [ih.1, show m + 1 + n = m + (n + 1) from by omega]
    · rw [hfst, hp]
      show buf _ :: ((ringbuffer.mk buf (m + 1) p : ringbuffer T capacity).pullN n).1
          = _
      rw [ih.2, List.range_succ_eq_map, List.map_cons, List.map_map]
      refine congrArg₂ _ ?_ ?_
      · rw [Nat.add_zero]
      · refine congrArg₂ _ (funext fun j => ?_) rfl
        simp only [Function.comp_apply]
        rw [show p + (m + 1) + j = p + m + (j + 1) from by omega]

/-! ### Small helpers -/

lemma ringbuffer.init_p_buffer [Inhabited T] (i : Nat) :
    (ringbuffer.init T capacity).p_buffer i = default := rfl

lemma ringbuffer.init_m_capacity [Inhabited T] :
    (ringbuffer.init T capacity).m_capacity = capacity := rfl

lemma ringbuffer.init_m_position [Inhabited T] :
    (ringbuffer.init T capacity).m_position = 0 := rfl

lemma ringbuffer.reset_m_capacity (rb : ringbuffer T capacity) :
    rb.reset.m_capacity = capacity := rfl

lemma ringbuffer.reset_m_position (rb : ringbuffer T capacity) :
    rb.reset.m_position = 0 := rfl

lemma ringbuffer.reset_p_buffer (rb : ringbuffer T capacity) :
    rb.reset.p_buffer = rb.p_buffer := rfl

lemma getD_append_lt {S : Type} :
    ∀ (l₁ l₂ : List S) (n : Nat) (d : S), n < l₁.length →
      (l₁ ++ l₂).getD n d = l₁.getD n d
  | [], _, _, _, h => by simp at h
  | _ :: _, _, 0, _, _ => rfl
  | a :: l₁, l₂, n + 1, d, h =>
    getD_append_lt l₁ l₂ n d (by simpa using h)

lemma getD_append_len {S : Type} :
    ∀ (l : List S) (x d : S), (l ++ [x]).getD l.length d = x
  | [], _, _ => rfl
  | _ :: l, x, d => getD_append_len l x d

lemma getD_drop_one {S : Type} (l : List S) (j : Nat) (d : S) :
    (l.drop 1).getD j d = l.getD (j + 1) d := by
  cases l <;> rfl

/-- The boolean results of `n` consecutive writes starting from free slack
`n`: `false` for the first `n - 1` of them, `true` for the last. -/
lemma fill_flags :
    ∀ n : Nat, 0 < n →
      (List.range n).map (fun j => n - (j + 1) == 0)
        = List.replicate (n - 1) false ++ [true]
  | 0, h => by omega
  | 1, _ => by decide
  | n + 2, _ => by
    rw [List.range_succ_eq_map, List.map_cons, List.map_map,
      show ((fun j => n + 2 - (j + 1) == 0) ∘ Nat.succ)
          = (fun j => n + 1 - (j + 1) == 0) from
        funext fun j => by
          simp only [Function.comp_apply]
          congr 1
          omega,
      fill_flags (n + 1) (by omega)]
    rfl

/-- Cursor evolution across `k` consecutive writes: the position advances by
`k` modulo `2 ^ 64` and the free slack drops by `k`, floored at zero. -/
lemma ringbuffer.run_replicate_emplace [Inhabited T] (v : T) :
    ∀ (k : Nat) (s : ringbuffer T capacity) (m : Nat),
      s.m_position = m % size_t_limit →
      (s.run (List.replicate k (Op.emplace v))).m_position
          = (m + k) % size_t_limit ∧
      (s.run (List.replicate k (Op.emplace v))).m_capacity
          = s.m_capacity - k
  | 0, s, m, h => ⟨by rw [Nat.add_zero]; exact h, by rw [Nat.sub_zero]; rfl⟩
  | k + 1, s, m, h => by
    rw [List.replicate_succ]
    have hstep : ((s.run (Op.emplace v :: List.replicate k (Op.emplace v))))
        = (s.emplace v).2.run (List.replicate k (Op.emplace v)) := rfl
    have hpos : (s.emplace v).2.m_position = (m + 1) % size_t_limit := by
      rw [ringbuffer.emplace_m_position, h, Nat.mod_add_mod]
    have ih := ringbuffer.run_replicate_emplace v k (s.emplace v).2 (m + 1) hpos
    rw [hstep, ih.1, ih.2, ringbuffer.emplace_m_capacity]
    exact ⟨by rw [show m + 1 + k = m + (k + 1) from by omega], by omega⟩

/-! ### The claims -/

/-- C3: a write decrements a positive `freeSlack` and returns `false`
exactly when the post-decrement `freeSlack` is still nonzero; it returns
`true` when the decrement reaches zero or when `freeSlack` was already zero
on entry (which it then leaves at zero); consequently, on a fresh buffer of
capacity `N` the first `N` writes report `false` `N - 1` times and then
`true` on the fill-completing write. -/
theorem claim_C3_write_flag (T : Type) [Inhabited T] (capacity : Nat)
    (hcap : 0 < capacity) (hw : capacity < size_t_limit) :
    (∀ (rb : ringbuffer T capacity) (v : T), 0 < rb.m_capacity →
      (rb.emplace v).2.m_capacity = rb.m_capacity - 1 ∧
      ((rb.emplace v).1 = false ↔ rb.m_capacity - 1 ≠ 0)) ∧
    (∀ (rb : ringbuffer T capacity) (v : T), rb.m_capacity = 0 →
      (rb.emplace v).1 = true ∧ (rb.emplace v).2.m_capacity = 0) ∧
    (∀ vs : List T, vs.length = capacity →
      ((ringbuffer.init T capacity).emplaceList vs).1
        = List.replicate (capacity - 1) false ++ [true]) := by
  refine ⟨fun rb v _ => ⟨ringbuffer.emplace_m_capacity rb v, ?_⟩,
    fun rb v h0 => ⟨?_, ?_⟩, fun vs hlen => ?_⟩
  · rw [ringbuffer.emplace_fst]
    exact beq_eq_false_iff_ne
  · rw [ringbuffer.emplace_fst, h0]
    rfl
  · rw [ringbuffer.emplace_m_capacity, h0]
  · have hspec := ringbuffer.emplaceList_spec vs (ringbuffer.init T capacity)
      (by rw [ringbuffer.init_m_position]; omega) hw
    rw [hspec.2.2.2, ringbuffer.init_m_capacity, hlen, fill_flags capacity hcap]

theorem claim_C3_witness :
    (0 < 3 ∧ 3 < size_t_limit) ∧
    (∀ vs : List Nat, vs.length = 3 →
      ((ringbuffer.init Nat 3).emplaceList vs).1
        = List.replicate 2 false ++ [true]) :=
  ⟨⟨by decide, by decide⟩,
    (claim_C3_write_flag Nat 3 (by decide) (by decide)).2.2⟩

/-- C4: a `pull` on an empty reachable state returns the default value (the
sentinel slot's content) and returns the state unchanged; in particular
`writeCount`, `freeSlack` and `size()` are untouched. -/
theorem claim_C4_empty_pull (T : Type) [Inhabited T] (capacity : Nat)
    (hcap : 0 < capacity) (hw : capacity < size_t_limit) (ops : List (Op T))
    (he : ((ringbuffer.init T capacity).run ops).is_empty = true) :
    ((ringbuffer.init T capacity).run ops).pull
      = (default, (ringbuffer.init T capacity).run ops) := by
  rw [ringbuffer.pull_of_empty _ he,
    (ringbuffer.Inv_reachable hcap hw ops).2.2.2 capacity (le_refl capacity)]

theorem claim_C4_witness :
    (0 < 3 ∧ 3 < size_t_limit
      ∧ ((ringbuffer.init Nat 3).run []).is_empty = true) ∧
    ((ringbuffer.init Nat 3).run []).pull
      = (default, (ringbuffer.init Nat 3).run []) :=
  ⟨⟨by decide, by decide, by decide⟩,
    claim_C4_empty_pull Nat 3 (by decide) (by decide) [] (by decide)⟩

/-- C5: in every reachable state `size()` is at most `capacity` (it is a
`Nat`, hence at least `0` as well): the wrapped `std::size_t` subtraction
`capacity - m_capacity` never underflows. -/
theorem claim_C5_size_bounded (T : Type) [Inhabited T] (capacity : Nat)
    (hcap : 0 < capacity) (hw : capacity < size_t_limit) (ops : List (Op T)) :
    ((ringbuffer.init T capacity).run ops).size ≤ capacity := by
  have h1 := (ringbuffer.Inv_reachable hcap hw ops).1
  rw [ringbuffer.size]
  unfold size_t_limit at *
  omega

theorem claim_C5_witness :
    (0 < 3 ∧ 3 < size_t_limit) ∧
    ((ringbuffer.init Nat 3).run [Op.emplace 7]).size ≤ 3 :=
  ⟨⟨by decide, by decide⟩,
    claim_C5_size_bounded Nat 3 (by decide) (by decide) [Op.emplace 7]⟩

/-- C6: in every reachable state, `is_empty()` holds iff `size() = 0` and
`is_full()` holds iff `size() = capacity`. -/
theorem claim_C6_empty_full_duality (T : Type) [Inhabited T] (capacity : Nat)
    (hcap : 0 < capacity) (hw : capacity < size_t_limit) (ops : List (Op T)) :
    (((ringbuffer.init T capacity).run ops).is_empty = true
      ↔ ((ringbuffer.init T capacity).run ops).size = 0) ∧
    (((ringbuffer.init T capacity).run ops).is_full = true
      ↔ ((ringbuffer.init T capacity).run ops).size = capacity) := by
  have h1 := (ringbuffer.Inv_reachable hcap hw ops).1
  rw [ringbuffer.size, ringbuffer.is_empty, ringbuffer.is_full,
    beq_iff_eq, beq_iff_eq]
  unfold size_t_limit at *
  constructor <;> omega

theorem claim_C6_witness :
    (0 < 3 ∧ 3 < size_t_limit) ∧
    ((((ringbuffer.init Nat 3).run [Op.emplace 5]).is_empty = true
        ↔ ((ringbuffer.init Nat 3).run [Op.emplace 5]).size = 0) ∧
     (((ringbuffer.init Nat 3).run [Op.emplace 5]).is_full = true
        ↔ ((ringbuffer.init Nat 3).run [Op.emplace 5]).size = 3)) :=
  ⟨⟨by decide, by decide⟩,
    claim_C6_empty_full_duality Nat 3 (by decide) (by decide) [Op.emplace 5]⟩

/-- C8: in every reachable state the sentinel slot `capacity` still holds
the default-constructed value, and a single `emplace` from any state leaves
slot `capacity` untouched. -/
theorem claim_C8_sentinel_slot (T : Type) [Inhabited T] (capacity : Nat)
    (hcap : 0 < capacity) (hw : capacity < size_t_limit) (ops : List (Op T)) :
    ((ringbuffer.init T capacity).run ops).p_buffer capacity = default ∧
    (∀ (rb : ringbuffer T capacity) (v : T),
      (rb.emplace v).2.p_buffer capacity = rb.p_buffer capacity) := by
  refine ⟨(ringbuffer.Inv_reachable hcap hw ops).2.2.2 capacity (le_refl _),
    fun rb v => ?_⟩
  rw [ringbuffer.emplace_p_buffer,
    Function.update_noteq (by have := Nat.mod_lt rb.m_position hcap; omega)]

theorem claim_C8_witness :
    (0 < 3 ∧ 3 < size_t_limit) ∧
    ((ringbuffer.init Nat 3).run [Op.emplace 1]).p_buffer 3 = default :=
  ⟨⟨by decide, by decide⟩,
    (claim_C8_sentinel_slot Nat 3 (by decide) (by decide) [Op.emplace 1]).1⟩

/-- C10: no reachable state is simultaneously empty and full (for positive
capacity the two cursor conditions `m_capacity = capacity` and
`m_capacity = 0` exclude each other). -/
theorem claim_C10_not_empty_and_full (T : Type) [Inhabited T] (capacity : Nat)
    (hcap : 0 < capacity) (ops : List (Op T)) :
    ¬(((ringbuffer.init T capacity).run ops).is_empty = true ∧
      ((ringbuffer.init T capacity).run ops).is_full = true) := by
  rintro ⟨he, hf⟩
  rw [ringbuffer.is_empty_true_iff] at he
  rw [ringbuffer.is_full, beq_iff_eq] at hf
  omega

theorem claim_C10_witness :
    0 < 3 ∧
    ¬(((ringbuffer.init Nat 3).run []).is_empty = true ∧
      ((ringbuffer.init Nat 3).run []).is_full = true) :=
  ⟨by decide, claim_C10_not_empty_and_full Nat 3 (by decide) []⟩

/-- C1: on a fresh buffer of positive capacity, writing any `k ≤ capacity`
values and then pulling `k` times returns exactly those values in order. -/
theorem claim_C1_fifo_order (T : Type) [Inhabited T] (capacity : Nat)
    (hcap : 0 < capacity) (hw : capacity < size_t_limit) (vs : List T)
    (hk : vs.length ≤ capacity) :
    (((ringbuffer.init T capacity).emplaceList vs).2.pullN vs.length).1 = vs := by
  have hspec := ringbuffer.emplaceList_spec vs (ringbuffer.init T capacity)
    (by rw [ringbuffer.init_m_position]; omega) hw
  have hstate : ((ringbuffer.init T capacity).emplaceList vs).2
      = ringbuffer.mk
          (fun i => if 0 ≤ i ∧ i < 0 + vs.length then vs.getD (i - 0) default
            else default)
          (capacity - vs.length) (0 + vs.length) :=
    ringbuffer.ext (funext fun i => hspec.2.2.1 i) hspec.2.1 hspec.1
  rw [hstate]
  have hpull := ringbuffer.pullN_spec vs.length
    (fun i => if 0 ≤ i ∧ i < 0 + vs.length then vs.getD (i - 0) default
      else default)
    (capacity - vs.length) (0 + vs.length) hw (by omega)
  rw [hpull.2]
  conv_rhs => rw [← getD_range_eq_self vs]
  refine List.map_congr_left fun j hj => ?_
  rw [List.mem_range] at hj
  rw [machine_sub_eq capacity (0 + vs.length + (capacity - vs.length)) j j
      hw (by omega)
      (by rw [show 0 + vs.length + (capacity - vs.length) + j = j + capacity
          from by omega]),
    Nat.mod_eq_of_lt (show j < capacity from by omega)]
  show (if 0 ≤ j ∧ j < 0 + vs.length then vs.getD (j - 0) default else default)
      = vs.getD j default
  rw [if_pos ⟨Nat.zero_le j, by omega⟩, Nat.sub_zero]

theorem claim_C1_witness :
    (0 < 3 ∧ 3 < size_t_limit ∧ ([10, 20] : List Nat).length ≤ 3) ∧
    (((ringbuffer.init Nat 3).emplaceList [10, 20]).2.pullN
      ([10, 20] : List Nat).length).1 = [10, 20] :=
  ⟨⟨by decide, by decide, by decide⟩,
    claim_C1_fifo_order Nat 3 (by decide) (by decide) [10, 20] (by decide)⟩

/-- C7: `reset` restores the initial cursors without touching storage, and a
full refill-and-drain cycle (`capacity` writes then `capacity` reads) after
a `reset` of any reachable state produces exactly the outputs of the same
cycle on a fresh buffer. -/
theorem claim_C7_reset_equiv (T : Type) [Inhabited T] (capacity : Nat)
    (hcap : 0 < capacity) (hw : capacity < size_t_limit) (ops : List (Op T))
    (vs : List T) (hlen : vs.length = capacity) :
    ((ringbuffer.init T capacity).run ops).reset.m_capacity = capacity ∧
    ((ringbuffer.init T capacity).run ops).reset.m_position = 0 ∧
    ((ringbuffer.init T capacity).run ops).reset.p_buffer
      = ((ringbuffer.init T capacity).run ops).p_buffer ∧
    (((ringbuffer.init T capacity).run ops).reset.emplaceList vs).1
      = ((ringbuffer.init T capacity).emplaceList vs).1 ∧
    ((((ringbuffer.init T capacity).run ops).reset.emplaceList vs).2.pullN
        capacity).1
      = (((ringbuffer.init T capacity).emplaceList vs).2.pullN capacity).1 := by
  have hsent := (ringbuffer.Inv_reachable hcap hw ops).2.2.2
  have hr := ringbuffer.emplaceList_spec vs
    ((ringbuffer.init T capacity).run ops).reset
    (by rw [ringbuffer.reset_m_position]; omega) hw
  have hi := ringbuffer.emplaceList_spec vs (ringbuffer.init T capacity)
    (by rw [ringbuffer.init_m_position]; omega) hw
  simp only [ringbuffer.reset_m_position, ringbuffer.reset_m_capacity,
    ringbuffer.reset_p_buffer] at hr
  simp only [ringbuffer.init_m_position, ringbuffer.init_m_capacity,
    ringbuffer.init_p_buffer] at hi
  have hstates : (((ringbuffer.init T capacity).run ops).reset.emplaceList vs).2
      = ((ringbuffer.init T capacity).emplaceList vs).2 := by
    refine ringbuffer.ext (funext fun i => ?_) ?_ ?_
    · rw [hr.2.2.1 i, hi.2.2.1 i]
      split_ifs with hcond
      · rfl
      · exact hsent i (by omega)
    · rw [hr.2.1, hi.2.1]
    · rw [hr.1, hi.1]
  refine ⟨rfl, rfl, rfl, ?_, ?_⟩
  · rw [hr.2.2.2, hi.2.2.2]
  · rw [hstates]

theorem claim_C7_witness :
    (0 < 3 ∧ 3 < size_t_limit ∧ ([4, 5, 6] : List Nat).length = 3) ∧
    ((((ringbuffer.init Nat 3).run [Op.emplace 9]).reset.emplaceList
        [4, 5, 6]).2.pullN 3).1
      = (((ringbuffer.init Nat 3).emplaceList [4, 5, 6]).2.pullN 3).1 :=
  ⟨⟨by decide, by decide, by decide⟩,
    (claim_C7_reset_equiv Nat 3 (by decide) (by decide) [Op.emplace 9]
      [4, 5, 6] (by decide)).2.2.2.2⟩

/-- C2: writing `capacity + 1` values into a fresh buffer makes the last
write report `true`, and the following `capacity` reads return the values
`v2 .. v(capacity+1)` in order — the first value has been overwritten. -/
theorem claim_C2_overwrite (T : Type) [Inhabited T] (capacity : Nat)
    (hcap : 0 < capacity) (hw : capacity < size_t_limit) (vs : List T)
    (hlen : vs.length = capacity + 1) :
    ((ringbuffer.init T capacity).emplaceList vs).1.getD capacity false
      = true ∧
    (((ringbuffer.init T capacity).emplaceList vs).2.pullN capacity).1
      = vs.drop 1 := by
  have hne : vs ≠ [] := by
    intro h
    rw [h] at hlen
    simp at hlen
  obtain ⟨as, x, hvs, has⟩ : ∃ as x, vs = as ++ [x] ∧ as.length = capacity := by
    refine ⟨vs.dropLast, vs.getLast hne,
      (List.dropLast_append_getLast hne).symm, ?_⟩
    rw [List.length_dropLast, hlen]
    omega
  subst hvs
  have hA := ringbuffer.emplaceList_spec as (ringbuffer.init T capacity)
    (by rw [ringbuffer.init_m_position]; omega) hw
  have hstateA : ((ringbuffer.init T capacity).emplaceList as).2
      = ringbuffer.mk
          (fun i => if 0 ≤ i ∧ i < 0 + as.length then as.getD (i - 0) default
            else default)
          (capacity - as.length) (0 + as.length) :=
    ringbuffer.ext (funext fun i => hA.2.2.1 i) hA.2.1 hA.1
  have happ := ringbuffer.emplaceList_append as [x] (ringbuffer.init T capacity)
  have hout1 : (((ringbuffer.init T capacity).emplaceList as).2.emplaceList
      [x]).1 = [true] := by
    rw [hstateA]
    show [(ringbuffer.mk _ (capacity - as.length) (0 + as.length)).emplace x
      |>.1] = [true]
    rw [ringbuffer.emplace_fst, ringbuffer.m_capacity_mk]
    simp only [List.cons.injEq, and_true, beq_iff_eq]
    omega
  have hstate2 : (((ringbuffer.init T capacity).emplaceList as).2.emplaceList
      [x]).2
      = ringbuffer.mk
          (Function.update
            (fun i => if 0 ≤ i ∧ i < 0 + as.length then as.getD (i - 0) default
              else default) 0 x)
          0 ((capacity + 1) % size_t_limit) := by
    rw [hstateA]
    show ((ringbuffer.mk _ (capacity - as.length) (0 + as.length)
        : ringbuffer T capacity).emplace x).2 = _
    refine ringbuffer.ext ?_ ?_ ?_
    · rw [ringbuffer.emplace_p_buffer, ringbuffer.m_position_mk,
        ringbuffer.p_buffer_mk, show (0 + as.length) % capacity = 0 from by
          rw [Nat.zero_add, has, Nat.mod_self]]
    · rw [ringbuffer.emplace_m_capacity, ringbuffer.m_capacity_mk,
        ringbuffer.m_capacity_mk]
      omega
    · rw [ringbuffer.emplace_m_position, ringbuffer.m_position_mk,
        ringbuffer.m_position_mk]
      congr 1
      omega
  constructor
  · rw [happ, hout1]
    have hlenA : ((ringbuffer.init T capacity).emplaceList as).1.length
        = capacity := by
      rw [hA.2.2.2, List.length_map, List.length_range, has]
    have hfin := getD_append_len
      (((ringbuffer.init T capacity).emplaceList as).1) true false
    rw [hlenA] at hfin
    exact hfin
  · have hsnd2 : ((ringbuffer.init T capacity).emplaceList (as ++ [x])).2
        = (((ringbuffer.init T capacity).emplaceList as).2.emplaceList [x]).2 := by
      rw [happ]
    rw [hsnd2, hstate2]
    have hP := ringbuffer.pullN_spec capacity
      (Function.update
        (fun i => if 0 ≤ i ∧ i < 0 + as.length then as.getD (i - 0) default
          else default) 0 x)
      0 ((capacity + 1) % size_t_limit) hw (by omega)
    rw [hP.2]
    have hdl : ((as ++ [x]).drop 1).length = capacity := by
      rw [List.length_drop, List.length_append, has]
      simp
    conv_rhs => rw [← getD_range_eq_self ((as ++ [x]).drop 1), hdl]
    refine List.map_congr_left fun j hj => ?_
    rw [List.mem_range] at hj
    rw [machine_sub_eq capacity ((capacity + 1) % size_t_limit + 0) j (j + 1)
        hw (by omega)
        (by rw [Nat.add_zero, Nat.mod_add_mod]; congr 1; omega),
      getD_drop_one]
    rcases Nat.lt_or_ge (j + 1) capacity with hj1 | hj1
    · rw [Nat.mod_eq_of_lt hj1,
        Function.update_noteq (by omega),
        getD_append_lt as [x] (j + 1) default (by omega)]
      show (if 0 ≤ j + 1 ∧ j + 1 < 0 + as.length then
          as.getD (j + 1 - 0) default else default) = as.getD (j + 1) default
      rw [if_pos ⟨Nat.zero_le _, by omega⟩, Nat.sub_zero]
    · rw [show j + 1 = capacity from by omega, Nat.mod_self,
        Function.update_same, ← has, getD_append_len]

theorem claim_C2_witness :
    (0 < 3 ∧ 3 < size_t_limit ∧ ([1, 2, 3, 4] : List Nat).length = 3 + 1) ∧
    (((ringbuffer.init Nat 3).emplaceList [1, 2, 3, 4]).1.getD 3 false
        = true ∧
      (((ringbuffer.init Nat 3).emplaceList [1, 2, 3, 4]).2.pullN 3).1
        = ([1, 2, 3, 4] : List Nat).drop 1) :=
  ⟨⟨by decide, by decide, by decide⟩,
    claim_C2_overwrite Nat 3 (by decide) (by decide) [1, 2, 3, 4] (by decide)⟩

/-- C9 (amended): in every reachable state the pending count
`capacity - m_capacity` is bounded by the number of writes since the last
reset; provided fewer than `2 ^ 64` writes happened since the last reset,
the `std::size_t` index expression `m_position + m_capacity - capacity` of a
read does not underflow (`capacity ≤ m_position + m_capacity`); and the
slot index a non-empty read computes is always below `capacity`. -/
theorem claim_C9_amended (T : Type) [Inhabited T] (capacity : Nat)
    (hcap : 0 < capacity) (hw : capacity < size_t_limit) (ops : List (Op T)) :
    (capacity - ((ringbuffer.init T capacity).run ops).m_capacity
      ≤ writesSinceReset ops) ∧
    (writesSinceReset ops < size_t_limit →
      capacity ≤ ((ringbuffer.init T capacity).run ops).m_position
        + ((ringbuffer.init T capacity).run ops).m_capacity) ∧
    ((((ringbuffer.init T capacity).run ops).m_position
        + ((ringbuffer.init T capacity).run ops).m_capacity) % size_t_limit
        + (size_t_limit - capacity)) % size_t_limit % capacity < capacity := by
  obtain ⟨h1, h2, h3, _⟩ := ringbuffer.Inv_reachable hcap hw ops
  refine ⟨h3, fun hlt => ?_, Nat.mod_lt _ hcap⟩
  rw [h2, Nat.mod_eq_of_lt hlt]
  omega

theorem claim_C9_witness :
    (0 < 3 ∧ 3 < size_t_limit
      ∧ writesSinceReset [Op.emplace (4 : Nat)] < size_t_limit) ∧
    3 ≤ ((ringbuffer.init Nat 3).run [Op.emplace 4]).m_position
      + ((ringbuffer.init Nat 3).run [Op.emplace 4]).m_capacity :=
  ⟨⟨by decide, by decide, by decide⟩,
    (claim_C9_amended Nat 3 (by decide) (by decide) [Op.emplace 4]).2.1
      (by decide)⟩

/-- C9, as stated, is false on the machine: after exactly `2 ^ 64` writes
since construction the stored `m_position` has wrapped to `0` while three
elements are pending, so in this reachable non-empty state
`m_position + m_capacity < capacity` — the unsigned index expression
`m_position + m_capacity - capacity` of the next read underflows. -/
theorem claim_C9_counterexample :
    ((ringbuffer.init Nat 3).run
        (List.replicate size_t_limit (Op.emplace 0))).is_empty = false ∧
    ((ringbuffer.init Nat 3).run
        (List.replicate size_t_limit (Op.emplace 0))).m_position
      + ((ringbuffer.init Nat 3).run
          (List.replicate size_t_limit (Op.emplace 0))).m_capacity < 3 := by
  have h := ringbuffer.run_replicate_emplace (0 : Nat) size_t_limit
    (ringbuffer.init Nat 3) 0 (Nat.zero_mod _).symm
  constructor
  · rw [ringbuffer.is_empty_false_iff, h.2]
    decide
  · rw [h.1, h.2]
    decide

end ubn
